import Mathlib

set_option linter.unnecessarySimpa false
set_option linter.unusedVariables false

/-!
Verification development for the doc-comment generation pipeline of the
repository (files `doc_comments_ai/llm.py` and `doc_comments_ai/app.py`).

Strings are modelled as `List Char`.  Python string operations used by the
source (`splitlines`, `strip`, `lstrip`, `find`, `rfind`, `replace`,
slicing, `startswith`, `str.join`) are translated as executable functions
on `List Char`.  The regular expressions appearing in the source are
translated into explicit scanning functions with the same match semantics
(leftmost match, greedy/lazy quantifiers with backtracking) restricted to
the ASCII character classes Python uses for `\s` and `\w`.
`str.splitlines` is modelled for the line boundaries `\n`, `\r` and
`\r\n` (the exotic Unicode boundaries Python also recognises are not
exercised by this code).
-/

/-- Strings of the model: lists of characters. -/
abbrev Str := List Char

/-- Turn a Lean string literal into the model representation. -/
def s (x : String) : Str := x.data

/-- Python `str.strip` / regex `\s` whitespace predicate (ASCII subset). -/
def pySpace (c : Char) : Bool :=
  c = ' ' || c = '\t' || c = '\n' || c = '\r' || c = '\x0b' || c = '\x0c'

/-- Python `str.lstrip()` with no argument: drop leading whitespace. -/
def pyLStrip (l : Str) : Str := l.dropWhile pySpace

/-- Python `str.strip()` with no argument: drop whitespace on both ends. -/
def pyStrip (l : Str) : Str := ((l.dropWhile pySpace).reverse.dropWhile pySpace).reverse

/-- Python `a.startswith(pat)` (here: `beginsWith pat a`). -/
def beginsWith : Str → Str → Bool
  | [], _ => true
  | _ :: _, [] => false
  | p :: ps, c :: cs => p = c && beginsWith ps cs

/-- `pat` occurs as a contiguous substring somewhere in `l` (Bool form). -/
def occursB (pat : Str) : Str → Bool
  | [] => beginsWith pat []
  | c :: rest => beginsWith pat (c :: rest) || occursB pat rest

/-- `pat` occurs as a contiguous substring somewhere in `l` (Prop form). -/
def OccursIn (pat l : Str) : Prop := ∃ x y, l = x ++ pat ++ y

/-- Index of the first occurrence of `pat` in `l` (Python `str.find` without
a start index, except that a miss is `none` instead of `-1`). -/
def firstOcc (pat : Str) : Str → Option Nat
  | [] => if beginsWith pat [] then some 0 else none
  | c :: rest =>
    if beginsWith pat (c :: rest) then some 0
    else (firstOcc pat rest).map (· + 1)

/-- Index of the last occurrence of `pat` in `l` (Python `str.rfind`, with
`none` instead of `-1`). -/
def lastOcc (pat : Str) : Str → Option Nat
  | [] => if beginsWith pat [] then some 0 else none
  | c :: rest =>
    match lastOcc pat rest with
    | some j => some (j + 1)
    | none => if beginsWith pat (c :: rest) then some 0 else none

/-- Python `text.find(pat, start)` including the clamping Python applies to
a negative `start` index (`max(len + start, 0)`); returns `-1` on a miss. -/
def pyFindFrom (pat l : Str) (start : Int) : Int :=
  let st : Nat := (if start < 0 then (l.length : Int) + start else start).toNat
  match (firstOcc pat (l.drop st)).map (· + st) with
  | some j => (j : Int)
  | none => -1

/-- Python `text.rfind(pat)`: `-1` on a miss. -/
def pyRFind (pat l : Str) : Int :=
  match lastOcc pat l with
  | some j => (j : Int)
  | none => -1

/-- Python slice `l[a:b]` for non-negative bounds. -/
def pySliceIdx (l : Str) (a b : Nat) : Str := (l.take b).drop a

/-- Worker for `pySplitlines`: `acc` is the current line, reversed. -/
def slAux : Str → Str → List Str
  | acc, [] => if acc = [] then [] else [acc.reverse]
  | acc, [c] => if c = '\n' ∨ c = '\r' then [acc.reverse] else [(c :: acc).reverse]
  | acc, c :: d :: rest =>
    if c = '\n' then acc.reverse :: slAux [] (d :: rest)
    else if c = '\r' then
      if d = '\n' then acc.reverse :: slAux [] rest
      else acc.reverse :: slAux [] (d :: rest)
    else slAux (c :: acc) (d :: rest)

/-- Python `str.splitlines()` for the boundaries `\n`, `\r\n`, `\r`:
no trailing empty line, `\r\n` counts as a single boundary. -/
def pySplitlines (l : Str) : List Str := slAux [] l

/-- Python `sep.join(xs)`. -/
def joinWith (sep : Str) : List Str → Str
  | [] => []
  | [x] => x
  | x :: y :: rest => x ++ sep ++ joinWith sep (y :: rest)

/-!  ## The indentation-aware merger (`llm.py`, `insert_doc_comment`)  -/

/-- The `for line in lines: if line.strip(): indent = re.match(r"\s*", line)
.group(0); break / else: indent = ""` loop of `insert_doc_comment`:
leading-whitespace run of the first non-blank line, `[]` if none. -/
def indentLoop : List Str → Str
  | [] => []
  | line :: rest =>
    if pyStrip line ≠ [] then line.takeWhile pySpace else indentLoop rest

/-- `llm.py` `insert_doc_comment(method_code, doc_comment)`: reindent the
doc comment to the method's leading whitespace and prefix it, separated by
a single newline. -/
def insert_doc_comment (method_code doc_comment : Str) : Str :=
  let indent := indentLoop (pySplitlines method_code)
  joinWith (s "\n")
      ((pySplitlines doc_comment).map
        (fun line => if pyStrip line ≠ [] then indent ++ line else line))
    ++ s "\n" ++ method_code

/-- Spec-side formulation of the indent computation (§4.3 of the spec):
the leading whitespace run of the first non-blank line of `src`, the empty
string if every line is blank. -/
def specIndent (src : Str) : Str :=
  match (pySplitlines src).find? (fun l => !(pyStrip l).isEmpty) with
  | some l => l.takeWhile pySpace
  | none => []

/-- Spec-side formulation of the reindenting step (§4.3): prefix `ind` to
every non-blank line of `doc`, leave blank lines untouched. -/
def specReindent (doc ind : Str) : Str :=
  joinWith (s "\n")
    ((pySplitlines doc).map (fun l => if (pyStrip l).isEmpty then l else ind ++ l))

/-!  ## The doc comment extractor (`llm.py`, `extract_doc_comment`)  -/

/-- Start marker of a delimited doc comment. -/
def docStart : Str := s "/**"

/-- End marker of a delimited doc comment. -/
def docEnd : Str := s "*/"

/-- One step of `re.finditer(r"/\*\*[\s\S]*?\*/", text)`: if a match starts
at the head of `l`, return the matched block (start marker, lazily-shortest
interior, end marker) and the remainder of `l` after it. -/
def takeBlock (l : Str) : Option (Str × Str) :=
  if beginsWith docStart l then
    match firstOcc docEnd (l.drop 3) with
    | some k => some (l.take (k + 5), l.drop (k + 5))
    | none => none
  else none

/-- Fuel-indexed scanner producing the list of non-overlapping matches of
`re.finditer(r"/\*\*[\s\S]*?\*/", ·)` in order; behaviour is the intended
one whenever `fuel` is at least the length of the text. -/
def findBlocksAux : Nat → Str → List Str
  | _, [] => []
  | 0, _ :: _ => []
  | fuel + 1, c :: rest =>
    match takeBlock (c :: rest) with
    | some (blk, r2) => blk :: findBlocksAux fuel r2
    | none => findBlocksAux fuel rest

/-- All non-overlapping lazy matches of the doc-comment block regex. -/
def findBlocks (t : Str) : List Str := findBlocksAux t.length t

/-- The `else` branch of `extract_doc_comment`: `start = text.rfind("/**")`,
`end = text.find("*/", start)`, return `text[start:end+2]` when both
succeed, else the whole text. -/
def extractFallback (t : Str) : Str :=
  let start := pyRFind docStart t
  let e := pyFindFrom docEnd t start
  if start ≠ -1 ∧ e ≠ -1 then pySliceIdx t start.toNat (e.toNat + 2) else t

/-- `llm.py` `extract_doc_comment(text)`: last complete block if any
complete block matches, otherwise the best-effort fallback span, otherwise
the text itself. -/
def extract_doc_comment (t : Str) : Str :=
  match (findBlocks t).getLast? with
  | some m => m
  | none => extractFallback t

/-- `extract_doc_comment` prints its warning exactly when the match list is
empty (the `else` branch); this mirrors that observable side effect. -/
def extract_doc_warns (t : Str) : Bool := (findBlocks t).isEmpty

/-- Decidable test: the text contains a complete delimited block, i.e. a
start marker with an end marker disjointly after it (see `hasBlockB_iff`). -/
def hasBlockB : Str → Bool
  | [] => false
  | c :: rest =>
    (beginsWith docStart (c :: rest) && occursB docEnd ((c :: rest).drop 3))
      || hasBlockB rest

/-- The text contains a complete delimited block (Prop form). -/
def HasBlock (t : Str) : Prop := ∃ a b c, t = a ++ docStart ++ b ++ docEnd ++ c

/-!  ## The response normalizer (`llm.py`, `DeepseekLLM`)  -/

/-- Per-line body of the SSE loop in `DeepseekLLM.run` (lines 260-266):
for a `"data: "`-framed line, the contribution appended to
`content_lines`, `none` when the line is skipped. -/
def fragLine (line : Str) : Option Str :=
  if beginsWith (s "data: ") line then
    let content := line.drop 6
    if pyStrip content = s "[h_newline]" then some (s "\n")
    else if pyStrip content ≠ [] ∧ pyStrip content ≠ s "[DONE]" ∧
        pyStrip content ≠ s "[newline]" then some content
    else none
  else none

/-- Stream reassembly of `DeepseekLLM.run` (lines 257-267): collect the
framed fragments of every line; if none survive, fall back to the whole
response text; otherwise concatenate them (`"".join`). -/
def deepseekReassemble (text : Str) : Str :=
  let contents := (pySplitlines text).filterMap fragLine
  if contents = [] then text else contents.flatten

/-- Claim-side fragment semantics used to state C6: the contribution of a
single fragment payload (the part after the `"data: "` framing). -/
def fragValue (p : Str) : Option Str :=
  if pyStrip p = s "[h_newline]" then some (s "\n")
  else if pyStrip p ≠ [] ∧ pyStrip p ≠ s "[DONE]" ∧ pyStrip p ≠ s "[newline]"
    then some p
  else none

/-- Python regex `\w` (ASCII subset): letters, digits, underscore. -/
def isWordChar (c : Char) : Bool := c.isAlphanum || c = '_'

/-- Length of the maximal run of word characters at the head of `l`. -/
def wordRun (l : Str) : Nat := (l.takeWhile isWordChar).length

/-- Find the first position where a triple-backtick fence starts, returning
the characters before it and those after it. -/
def splitAtFence : Str → Option (Str × Str)
  | [] => none
  | c :: rest =>
    if beginsWith (s "```") (c :: rest) then some ([], (c :: rest).drop 3)
    else (splitAtFence rest).map (fun pr => (c :: pr.1, pr.2))

/-- The lazy `([\s\S]+?)` group followed by a closing fence: the shortest
non-empty prefix of `l` such that a fence follows it. -/
def tryInner : Str → Option Str
  | [] => none
  | c :: rest => (splitAtFence rest).map (fun pr => c :: pr.1)

/-- The `\n?` quantifier before the lazy group: greedily try to consume a
newline first, backtracking to the empty alternative on failure. -/
def tryNl (l : Str) : Option Str :=
  match l with
  | [] => none
  | c :: rest =>
    if c = '\n' then
      match tryInner rest with
      | some inner => some inner
      | none => tryInner (c :: rest)
    else tryInner (c :: rest)

/-- The `(\w+)?` group: try word-run lengths from `w` down to `1`, then the
absent-group alternative, mirroring greedy backtracking. -/
def tryLangFrom : Nat → Str → Option (Option Str × Str)
  | 0, l => (tryNl l).map (fun inner => ((none : Option Str), inner))
  | w + 1, l =>
    match tryNl (l.drop (w + 1)) with
    | some inner => some (some (l.take (w + 1)), inner)
    | none => tryLangFrom w l

/-- `re.search(r"\x60\x60\x60(\w+)?\n?([\s\S]+?)\x60\x60\x60", text)`
(backticks escaped here): leftmost position admitting a match, returning
the optional language group and the inner group. -/
def fenceSearch : Str → Option (Option Str × Str)
  | [] => none
  | c :: rest =>
    if beginsWith (s "```") (c :: rest) then
      match tryLangFrom (wordRun ((c :: rest).drop 3)) ((c :: rest).drop 3) with
      | some r => some r
      | none => fenceSearch rest
    else fenceSearch rest

/-- `re.match(r"(\w+)\s*(/[*]{2}[\s\S]+)", text)`: anchored at the start, a
non-empty word run, optional whitespace, then a start marker with at least
one further character, captured greedily to the end of the text.
Backtracking cannot help here (shrinking either quantifier leaves the next
token at a character it cannot match), so the maximal runs are decisive. -/
def langCommentMatch (l : Str) : Option (Str × Str) :=
  let w := wordRun l
  if w = 0 then none
  else
    let r2 := (l.drop w).dropWhile pySpace
    if beginsWith docStart r2 ∧ 4 ≤ r2.length then some (l.take w, r2) else none

/-- Pieces of `l` between consecutive non-overlapping leftmost occurrences
of `pat` (Python `str.split(pat)` for non-empty `pat`), fuel-indexed. -/
def splitOccAux (pat : Str) : Nat → Str → List Str
  | _, [] => [[]]
  | 0, c :: rest => [c :: rest]
  | fuel + 1, c :: rest =>
    if beginsWith pat (c :: rest) then
      [] :: splitOccAux pat fuel ((c :: rest).drop pat.length)
    else
      match splitOccAux pat fuel rest with
      | [] => [[c]]
      | p :: ps => (c :: p) :: ps

/-- Python `l.split(pat)` for non-empty `pat`. -/
def splitOcc (pat l : Str) : List Str := splitOccAux pat l.length l

/-- Python `l.replace(old, new)` for non-empty `old` (the only way the
translated code calls it; Python's empty-separator behaviour is not
modelled and the identity is returned instead). -/
def pyReplace (old new l : Str) : Str :=
  if old = [] then l else joinWith new (splitOcc old l)

/-- `re.sub(r"^data:\s*", "", code, flags=re.MULTILINE)`, scanning the
original string left to right: `atStart` records whether the current
position is a line start of the original string (start of string, or the
previous original character is a newline). -/
def stripDataAux : Nat → Bool → Str → Str
  | 0, _, l => l
  | _ + 1, _, [] => []
  | fuel + 1, atStart, c :: rest =>
    if atStart ∧ beginsWith (s "data:") (c :: rest) then
      let r2 := (c :: rest).drop 5
      let ws := r2.takeWhile pySpace
      stripDataAux fuel (decide (ws.getLast? = some '\n')) (r2.drop ws.length)
    else c :: stripDataAux fuel (decide (c = '\n')) rest

/-- Remove every line-anchored `data:` framing run (see `stripDataAux`). -/
def stripData (l : Str) : Str := stripDataAux l.length true l

/-- The three post-match transformations of `_extract_code_block`: replace
the newline marker, strip the per-line `data:` framing, strip leading
whitespace. -/
def postProcessCode (code : Str) : Str :=
  pyLStrip (stripData (pyReplace (s "[h_newline]") (s "\n") code))

/-- The return expression of `_extract_code_block`: a fresh fenced block
carrying the language tag. -/
def wrapFence (lang code : Str) : Str :=
  s "```" ++ lang ++ s "\n" ++ code ++ s "\n" ++ s "```"

/-- `llm.py` `DeepseekLLM._extract_code_block(text)`. -/
def extract_code_block (text : Str) : Str :=
  let lc : Str × Str :=
    match fenceSearch text with
    | some (lg, inner) => (lg.getD (s "java"), inner)
    | none =>
      match langCommentMatch text with
      | some r => r
      | none => (s "java", text)
  wrapFence lc.1 (postProcessCode lc.2)

/-- `llm.py` `DeepseekLLM.run` after the HTTP call: `none` models the
request raising (the `except` branch returns `""`), `some text` models a
response body, which is reassembled and passed through
`_extract_code_block` (whose result, always fenced, is returned). -/
def deepseekRun (backendResponse : Option Str) : Str :=
  match backendResponse with
  | none => []
  | some text =>
    let merged := deepseekReassemble text
    let cb := extract_code_block merged
    if cb = [] then merged else cb

/-!  ## Patch set and driver (`app.py`, `run`)  -/

/-- Python dict assignment `d[k] = v`: overwrite in place if the key is
present (keeping its position), else append. -/
def dictInsert : List (Str × Str) → Str → Str → List (Str × Str)
  | [], k, v => [(k, v)]
  | (k', v') :: rest, k, v =>
    if k' = k then (k', v) :: rest else (k', v') :: dictInsert rest k v

/-- Python dict lookup `d[k]`. -/
def lookupKey (k : Str) : List (Str × Str) → Option Str
  | [] => none
  | (k', v) :: rest => if k' = k then some v else lookupKey k rest

/-- Number of entries with key `k`. -/
def countKey (k : Str) (ps : List (Str × Str)) : Nat :=
  (ps.filter (fun e => decide (e.1 = k))).length

/-- Body of the per-method loop of `app.run` (lines 139-154) after the
model call returned `llmOutput`: extract, merge, record the patch entry. -/
def processStep (ps : List (Str × Str)) (methodSource llmOutput : Str) :
    List (Str × Str) :=
  dictInsert ps methodSource
    (insert_doc_comment methodSource (extract_doc_comment llmOutput))

/-- Modelled from the spec: `utils.write_code_snippet_to_file` is not among
the provided sources (only its caller in `app.py` is).  Per §4.5 of the
spec it replaces every literal occurrence of `originalText` within the
current file content with `mergedText`, i.e. Python `str.replace`. -/
def write_code_snippet (content original merged : Str) : Str :=
  pyReplace original merged content

/-- The final loop of `app.run` (lines 161-164): apply each patch entry to
the file content in insertion order. -/
def applyPatchSet (content : Str) : List (Str × Str) → Str
  | [] => content
  | e :: rest => applyPatchSet (write_code_snippet content e.1 e.2) rest

/-!  ## Lemmas: basic string machinery  -/

theorem beginsWith_iff (pat l : Str) : beginsWith pat l = true ↔ ∃ r, l = pat ++ r := by
  induction pat generalizing l with
  | nil => simp [beginsWith]
  | cons p ps ih =>
    cases l with
    | nil => simp [beginsWith]
    | cons c cs =>
      simp only [beginsWith, Bool.and_eq_true, decide_eq_true_eq, ih]
      constructor
      · rintro ⟨rfl, r, rfl⟩; exact ⟨r, rfl⟩
      · rintro ⟨r, h⟩
        injection h with h1 h2
        exact ⟨h1.symm, r, h2⟩

theorem beginsWith_append (pat r : Str) : beginsWith pat (pat ++ r) = true :=
  (beginsWith_iff pat (pat ++ r)).mpr ⟨r, rfl⟩

theorem beginsWith_mono {pat a : Str} (b : Str) (h : beginsWith pat a = true) :
    beginsWith pat (a ++ b) = true := by
  rcases (beginsWith_iff pat a).mp h with ⟨r, rfl⟩
  exact (beginsWith_iff _ _).mpr ⟨r ++ b, by simp⟩

theorem occursB_iff (pat l : Str) : occursB pat l = true ↔ OccursIn pat l := by
  induction l with
  | nil =>
    simp only [occursB, OccursIn, beginsWith_iff]
    constructor
    · rintro ⟨r, h⟩; exact ⟨[], r, by simpa using h⟩
    · rintro ⟨x, y, h⟩
      refine ⟨y, ?_⟩
      have hx : x = [] := by
        cases x with
        | nil => rfl
        | cons a as => simp at h
      subst hx; simpa using h
  | cons c rest ih =>
    simp only [occursB, Bool.or_eq_true, beginsWith_iff, ih, OccursIn]
    constructor
    · rintro (⟨r, h⟩ | ⟨x, y, h⟩)
      · exact ⟨[], r, by simpa using h⟩
      · exact ⟨c :: x, y, by simp [h]⟩
    · rintro ⟨x, y, h⟩
      cases x with
      | nil => exact Or.inl ⟨y, by simpa using h⟩
      | cons a as =>
        injection h with h1 h2
        exact Or.inr ⟨as, y, h2⟩

theorem firstOcc_cons_pos {pat : Str} {c : Char} {rest : Str}
    (hb : beginsWith pat (c :: rest) = true) :
    firstOcc pat (c :: rest) = some 0 := by
  simp [firstOcc, hb]

theorem firstOcc_cons_neg {pat : Str} {c : Char} {rest : Str}
    (hb : beginsWith pat (c :: rest) = false) :
    firstOcc pat (c :: rest) = (firstOcc pat rest).map (· + 1) := by
  simp [firstOcc, hb]

theorem firstOcc_sound {pat l : Str} {k : Nat} (h : firstOcc pat l = some k) :
    ∃ pre post, pre.length = k ∧ l = pre ++ pat ++ post ∧
      ∀ j, j < k → beginsWith pat (l.drop j) = false := by
  induction l generalizing k with
  | nil =>
    by_cases hb : beginsWith pat [] = true
    · rcases (beginsWith_iff _ _).mp hb with ⟨r, hr⟩
      simp only [firstOcc, hb, if_true, Option.some.injEq] at h
      subst h
      exact ⟨[], r, rfl, by simpa using hr, by omega⟩
    · simp [firstOcc, hb] at h
  | cons c rest ih =>
    by_cases hb : beginsWith pat (c :: rest) = true
    · rw [firstOcc_cons_pos hb] at h
      injection h with h'
      subst h'
      rcases (beginsWith_iff _ _).mp hb with ⟨r, hr⟩
      exact ⟨[], r, rfl, by simpa using hr, by omega⟩
    · rw [firstOcc_cons_neg (Bool.eq_false_iff.mpr hb)] at h
      rcases Option.map_eq_some'.mp h with ⟨k', hk', rfl⟩
      rcases ih hk' with ⟨pre, post, hlen, hdec, hmin⟩
      refine ⟨c :: pre, post, by simp [hlen], by simp [hdec], ?_⟩
      intro j hj
      cases j with
      | zero => simpa using Bool.eq_false_iff.mpr hb
      | succ j' => simpa using hmin j' (by omega)

theorem firstOcc_none {pat l : Str} (h : firstOcc pat l = none) :
    ∀ j, beginsWith pat (l.drop j) = false := by
  induction l with
  | nil =>
    intro j
    by_cases hb : beginsWith pat [] = true
    · simp [firstOcc, hb] at h
    · simpa [List.drop_nil] using Bool.eq_false_iff.mpr hb
  | cons c rest ih =>
    intro j
    by_cases hb : beginsWith pat (c :: rest) = true
    · simp [firstOcc_cons_pos hb] at h
    · rw [firstOcc_cons_neg (Bool.eq_false_iff.mpr hb)] at h
      have hrest : firstOcc pat rest = none := Option.map_eq_none'.mp h
      cases j with
      | zero => simpa using Bool.eq_false_iff.mpr hb
      | succ j' => simpa using ih hrest j'

theorem firstOcc_isSome {pat : Str} (pre post : Str) :
    (firstOcc pat (pre ++ pat ++ post)).isSome := by
  induction pre with
  | nil =>
    cases hp : (pat ++ post : Str) with
    | nil =>
      have hpat : pat = [] := by
        cases pat with
        | nil => rfl
        | cons a as => simp at hp
      subst hpat
      have hpost : post = [] := by simpa using hp
      subst hpost
      simp [firstOcc, beginsWith]
    | cons a as =>
      have hb : beginsWith pat (a :: as) = true := hp ▸ beginsWith_append pat post
      simp only [List.nil_append, hp, firstOcc_cons_pos hb, Option.isSome_some]
  | cons a as ih =>
    simp only [List.cons_append, List.append_assoc] at *
    by_cases hb : beginsWith pat (a :: (as ++ (pat ++ post))) = true
    · simp [firstOcc_cons_pos hb]
    · rw [firstOcc_cons_neg (Bool.eq_false_iff.mpr hb)]
      cases hf : firstOcc pat (as ++ (pat ++ post)) with
      | none => rw [hf] at ih; simp at ih
      | some k => simp

theorem beginsWith_nil_false {pat : Str} (hp : pat ≠ []) : beginsWith pat [] = false := by
  cases pat with
  | nil => exact absurd rfl hp
  | cons p ps => rfl

theorem lastOcc_none {pat l : Str} (hp : pat ≠ []) :
    lastOcc pat l = none → ∀ j, beginsWith pat (l.drop j) = false := by
  induction l with
  | nil => intro _ j; simpa using beginsWith_nil_false hp
  | cons c rest ih =>
    intro h j
    cases hr : lastOcc pat rest with
    | some j2 => simp [lastOcc, hr] at h
    | none =>
      by_cases hb : beginsWith pat (c :: rest) = true
      · simp [lastOcc, hr, hb] at h
      · cases j with
        | zero => simpa using Bool.eq_false_iff.mpr hb
        | succ j' => simpa using ih hr j'

theorem lastOcc_sound {pat l : Str} {k : Nat} (hp : pat ≠ []) :
    lastOcc pat l = some k →
    beginsWith pat (l.drop k) = true ∧ ∀ j, k < j → beginsWith pat (l.drop j) = false := by
  induction l generalizing k with
  | nil =>
    intro h
    rw [show lastOcc pat [] = if beginsWith pat [] then some 0 else none from rfl,
      beginsWith_nil_false hp] at h
    simp at h
  | cons c rest ih =>
    intro h
    cases hr : lastOcc pat rest with
    | some j =>
      simp only [lastOcc, hr] at h
      injection h with h'
      subst h'
      rcases ih hr with ⟨hb, hmax⟩
      refine ⟨by simpa using hb, ?_⟩
      intro j2 hj2
      cases j2 with
      | zero => omega
      | succ j2' => simpa using hmax j2' (by omega)
    | none =>
      simp only [lastOcc, hr] at h
      by_cases hb : beginsWith pat (c :: rest) = true
      · rw [if_pos hb] at h
        injection h with h'
        subst h'
        refine ⟨by simpa using hb, ?_⟩
        intro j hj
        cases j with
        | zero => omega
        | succ j' => simpa using lastOcc_none hp hr j'
      · rw [if_neg hb] at h
        cases h

theorem getLast?_mem {α : Type} {l : List α} {b : α} (h : l.getLast? = some b) : b ∈ l := by
  induction l with
  | nil => cases h
  | cons a rest ih =>
    cases rest with
    | nil =>
      simp only [List.getLast?_singleton, Option.some.injEq] at h
      simp [h]
    | cons y ys =>
      rw [List.getLast?_cons_cons] at h
      exact List.mem_cons_of_mem a (ih h)

theorem docStart_ne_nil : docStart ≠ [] := by decide

theorem docEnd_ne_nil : docEnd ≠ [] := by decide

/-!  ## Lemmas: the block scanner  -/

theorem takeBlock_sound {l blk r2 : Str} (h : takeBlock l = some (blk, r2)) :
    l = blk ++ r2 ∧
      ∃ inner, blk = docStart ++ inner ++ docEnd ∧ ¬ OccursIn docEnd inner := by
  by_cases hb : beginsWith docStart l = true
  · rcases (beginsWith_iff _ _).mp hb with ⟨m, hm⟩
    have hdrop : l.drop 3 = m := by
      rw [hm, show (3 : Nat) = docStart.length from rfl, List.drop_left]
    cases hf : firstOcc docEnd (l.drop 3) with
    | none => simp [takeBlock, hb, hf] at h
    | some k =>
      simp only [takeBlock, hb, if_true, hf, Option.some.injEq, Prod.mk.injEq] at h
      rcases h with ⟨hblk, hr2⟩
      rw [hdrop] at hf
      rcases firstOcc_sound hf with ⟨pre, post, hlen, hdec, hmin⟩
      have h3 : docStart.length = 3 := rfl
      have h2 : docEnd.length = 2 := rfl
      have hl : l = (docStart ++ pre ++ docEnd) ++ post := by
        rw [hm, hdec]; simp
      have hlen5 : (docStart ++ pre ++ docEnd).length = k + 5 := by
        simp only [List.length_append, h3, h2, hlen]
        omega
      have hblk' : blk = docStart ++ pre ++ docEnd := by
        rw [← hblk, hl, ← hlen5, List.take_left]
      have hr2' : r2 = post := by
        rw [← hr2, hl, ← hlen5, List.drop_left]
      refine ⟨?_, pre, hblk', ?_⟩
      · rw [hblk', hr2']; simpa using hl
      · rintro ⟨x, y, hxy⟩
        have hx : x.length < k := by
          have := congrArg List.length hxy
          simp only [List.length_append, h2, hlen] at this
          omega
        have hm2 : m = x ++ (docEnd ++ (y ++ docEnd ++ post)) := by
          rw [hdec, hxy]; simp
        have hbm : beginsWith docEnd (m.drop x.length) = true := by
          rw [hm2, List.drop_left]
          exact beginsWith_append _ _
        exact absurd hbm (by simpa using hmin x.length hx)
  · simp [takeBlock, hb] at h

theorem takeBlock_rest_length {l blk r2 : Str} (h : takeBlock l = some (blk, r2)) :
    r2.length < l.length := by
  rcases takeBlock_sound h with ⟨hl, inner, hshape, -⟩
  have hne : blk ≠ [] := by
    rw [hshape]; simp [docStart, s]
  have := congrArg List.length hl
  simp at this
  rcases List.length_pos.mpr hne with hpos
  omega

theorem findBlocksAux_nil (f : Nat) : findBlocksAux f [] = [] := by
  cases f <;> rfl

theorem findBlocksAux_fuel :
    ∀ f g (l : Str), l.length ≤ f → l.length ≤ g →
      findBlocksAux f l = findBlocksAux g l := by
  intro f
  induction f with
  | zero =>
    intro g l hf hg
    have : l = [] := List.length_eq_zero.mp (Nat.le_zero.mp hf)
    subst this
    simp [findBlocksAux_nil]
  | succ f ih =>
    intro g l hf hg
    cases l with
    | nil => simp [findBlocksAux_nil]
    | cons c rest =>
      cases g with
      | zero =>
        have : (c :: rest : Str).length = 0 := Nat.le_zero.mp hg
        simp at this
      | succ g' =>
        simp only [findBlocksAux]
        cases htb : takeBlock (c :: rest) with
        | some pr =>
          rcases pr with ⟨blk, r2⟩
          have hr2 : r2.length < (c :: rest).length := takeBlock_rest_length htb
          simp only [List.length_cons] at hr2 hf hg
          exact congrArg (List.cons blk) (ih g' r2 (by omega) (by omega))
        | none =>
          simp only [List.length_cons] at hf hg
          exact ih g' rest (by omega) (by omega)

theorem findBlocksAux_eq_findBlocks {f : Nat} {l : Str} (h : l.length ≤ f) :
    findBlocksAux f l = findBlocks l :=
  findBlocksAux_fuel f l.length l h (Nat.le_refl _)

theorem findBlocksAux_ne_nil :
    ∀ f (l : Str), l.length ≤ f → HasBlock l → findBlocksAux f l ≠ [] := by
  intro f
  induction f with
  | zero =>
    intro l hf hb
    have : l = [] := List.length_eq_zero.mp (Nat.le_zero.mp hf)
    subst this
    rcases hb with ⟨a, b, c, habc⟩
    have := congrArg List.length habc
    simp [docStart, docEnd, s] at this
    omega
  | succ f ih =>
    intro l hf hb
    cases l with
    | nil =>
      rcases hb with ⟨a, b, c, habc⟩
      have := congrArg List.length habc
      simp [docStart, docEnd, s] at this
      omega
    | cons c0 rest =>
      simp only [findBlocksAux]
      cases htb : takeBlock (c0 :: rest) with
      | some pr => simp
      | none =>
        simp only [List.length_cons] at hf
        rcases hb with ⟨a, b, cc, habc⟩
        cases a with
        | nil =>
          exfalso
          have hbw : beginsWith docStart (c0 :: rest) = true := by
            rw [habc]
            simpa using beginsWith_append docStart (b ++ docEnd ++ cc)
          have hdrop : (c0 :: rest : Str).drop 3 = b ++ docEnd ++ cc := by
            rw [habc, show (3 : Nat) = docStart.length from rfl]
            simpa using List.drop_left docStart (b ++ docEnd ++ cc)
          have hsome : (firstOcc docEnd ((c0 :: rest : Str).drop 3)).isSome := by
            rw [hdrop]
            exact firstOcc_isSome b cc
          rw [takeBlock, if_pos hbw] at htb
          cases hfo : firstOcc docEnd ((c0 :: rest : Str).drop 3) with
          | some k => rw [hfo] at htb; cases htb
          | none => rw [hfo] at hsome; cases hsome
        | cons a0 as =>
          have : c0 :: rest = a0 :: (as ++ docStart ++ b ++ docEnd ++ cc) := by
            simpa using habc
          injection this with h1 h2
          exact ih rest (by omega) ⟨as, b, cc, h2⟩

theorem findBlocks_ne_nil {t : Str} (h : HasBlock t) : findBlocks t ≠ [] :=
  findBlocksAux_ne_nil t.length t (Nat.le_refl _) h

theorem findBlocksAux_mem :
    ∀ f (l : Str), l.length ≤ f → ∀ b ∈ findBlocksAux f l,
      ∃ pre post inner, l = pre ++ b ++ post ∧
        b = docStart ++ inner ++ docEnd ∧ ¬ OccursIn docEnd inner := by
  intro f
  induction f with
  | zero =>
    intro l hf b hmem
    have : l = [] := List.length_eq_zero.mp (Nat.le_zero.mp hf)
    subst this
    simp [findBlocksAux_nil] at hmem
  | succ f ih =>
    intro l hf b hmem
    cases l with
    | nil => simp [findBlocksAux_nil] at hmem
    | cons c rest =>
      simp only [findBlocksAux] at hmem
      cases htb : takeBlock (c :: rest) with
      | some pr =>
        rcases pr with ⟨blk, r2⟩
        rw [htb] at hmem
        rcases takeBlock_sound htb with ⟨hl, inner, hshape, hnocc⟩
        have hr2 : r2.length < (c :: rest).length := takeBlock_rest_length htb
        simp only [List.length_cons] at hr2 hf
        rcases List.mem_cons.mp hmem with hb | hmem'
        · subst hb
          exact ⟨[], r2, inner, by simpa using hl, hshape, hnocc⟩
        · rcases ih r2 (by omega) b hmem' with ⟨pre, post, inner', hdec, hshape', hnocc'⟩
          exact ⟨blk ++ pre, post, inner', by rw [hl, hdec]; simp, hshape', hnocc'⟩
      | none =>
        rw [htb] at hmem
        simp only [List.length_cons] at hf
        rcases ih rest (by omega) b hmem with ⟨pre, post, inner, hdec, hshape, hnocc⟩
        exact ⟨c :: pre, post, inner, by rw [hdec]; rfl, hshape, hnocc⟩

theorem findBlocksAux_getLast :
    ∀ f (l : Str), l.length ≤ f → ∀ b, (findBlocksAux f l).getLast? = some b →
      ∃ pre post inner, l = pre ++ b ++ post ∧
        b = docStart ++ inner ++ docEnd ∧ ¬ OccursIn docEnd inner ∧
        ¬ HasBlock post := by
  intro f
  induction f with
  | zero =>
    intro l hf b hlast
    have : l = [] := List.length_eq_zero.mp (Nat.le_zero.mp hf)
    subst this
    simp [findBlocksAux_nil] at hlast
  | succ f ih =>
    intro l hf b hlast
    cases l with
    | nil => simp [findBlocksAux_nil] at hlast
    | cons c rest =>
      simp only [findBlocksAux] at hlast
      cases htb : takeBlock (c :: rest) with
      | some pr =>
        rcases pr with ⟨blk, r2⟩
        rw [htb] at hlast
        have hlast' : (blk :: findBlocksAux f r2).getLast? = some b := hlast
        rcases takeBlock_sound htb with ⟨hl, inner, hshape, hnocc⟩
        have hr2 : r2.length < (c :: rest).length := takeBlock_rest_length htb
        simp only [List.length_cons] at hr2 hf
        cases hxs : findBlocksAux f r2 with
        | nil =>
          rw [hxs] at hlast'
          simp only [List.getLast?_singleton, Option.some.injEq] at hlast'
          subst hlast'
          refine ⟨[], r2, inner, by simpa using hl, hshape, hnocc, ?_⟩
          intro hhb
          exact findBlocksAux_ne_nil f r2 (by omega) hhb hxs
        | cons y ys =>
          rw [hxs, List.getLast?_cons_cons, ← hxs] at hlast'
          rcases ih r2 (by omega) b hlast' with ⟨pre, post, inner', hdec, hsh, hno, hnb⟩
          exact ⟨blk ++ pre, post, inner', by rw [hl, hdec]; simp, hsh, hno, hnb⟩
      | none =>
        rw [htb] at hlast
        simp only [List.length_cons] at hf
        rcases ih rest (by omega) b hlast with ⟨pre, post, inner, hdec, hsh, hno, hnb⟩
        exact ⟨c :: pre, post, inner, by rw [hdec]; rfl, hsh, hno, hnb⟩

theorem hasBlockB_iff (t : Str) : hasBlockB t = true ↔ HasBlock t := by
  induction t with
  | nil =>
    constructor
    · intro h
      exact absurd h (by decide)
    · rintro ⟨a, b, c, habc⟩
      have := congrArg List.length habc
      simp [docStart, docEnd, s] at this
      omega
  | cons c0 rest ih =>
    simp only [hasBlockB, Bool.or_eq_true, Bool.and_eq_true, ih]
    constructor
    · rintro (⟨hbw, hocc⟩ | ⟨a, b, cc, habc⟩)
      · rcases (beginsWith_iff _ _).mp hbw with ⟨m, hm⟩
        have hdrop : (c0 :: rest : Str).drop 3 = m := by
          rw [hm, show (3 : Nat) = docStart.length from rfl, List.drop_left]
        rw [hdrop] at hocc
        rcases (occursB_iff _ _).mp hocc with ⟨x, y, hxy⟩
        exact ⟨[], x, y, by rw [hm, hxy]; simp⟩
      · exact ⟨c0 :: a, b, cc, by rw [habc]; rfl⟩
    · rintro ⟨a, b, cc, habc⟩
      cases a with
      | nil =>
        left
        have hbw : beginsWith docStart (c0 :: rest) = true := by
          rw [habc]
          simpa using beginsWith_append docStart (b ++ docEnd ++ cc)
        have hdrop : (c0 :: rest : Str).drop 3 = b ++ docEnd ++ cc := by
          rw [habc, show (3 : Nat) = docStart.length from rfl]
          simpa using List.drop_left docStart (b ++ docEnd ++ cc)
        refine ⟨hbw, ?_⟩
        rw [hdrop]
        exact (occursB_iff _ _).mpr ⟨b, cc, rfl⟩
      | cons a0 as =>
        right
        have : c0 :: rest = a0 :: (as ++ docStart ++ b ++ docEnd ++ cc) := by
          simpa using habc
        injection this with h1 h2
        exact ⟨as, b, cc, h2⟩

theorem getLast?_some_of_ne_nil {α : Type} {l : List α} (h : l ≠ []) :
    ∃ b, l.getLast? = some b := by
  cases l with
  | nil => exact absurd rfl h
  | cons a rest => exact ⟨(a :: rest).getLast (by simp), List.getLast?_eq_getLast _ _⟩

theorem extract_eq_of_getLast {t b : Str} (h : (findBlocks t).getLast? = some b) :
    extract_doc_comment t = b := by
  simp [extract_doc_comment, h]

theorem extract_eq_fallback {t : Str} (h : (findBlocks t).getLast? = none) :
    extract_doc_comment t = extractFallback t := by
  simp [extract_doc_comment, h]

theorem slice_decomp (t : Str) (a b : Nat) :
    ∃ pre post, t = pre ++ pySliceIdx t a b ++ post := by
  refine ⟨(t.take b).take a, t.drop b, ?_⟩
  rw [pySliceIdx]
  conv_lhs => rw [← List.take_append_drop b t, ← List.take_append_drop a (t.take b)]

theorem lookupKey_dictInsert (ps : List (Str × Str)) (k v : Str) :
    lookupKey k (dictInsert ps k v) = some v := by
  induction ps with
  | nil => simp [dictInsert, lookupKey]
  | cons e rest ih =>
    rcases e with ⟨k', v'⟩
    by_cases hk : k' = k
    · simp [dictInsert, hk, lookupKey]
    · simp [dictInsert, hk, lookupKey, ih]

/-- C1: for every input text containing at least one complete delimited
doc-comment block (a start marker `/**` with an end marker `*/` disjointly
after it), `extract_doc_comment` returns exactly the last of the
non-overlapping lazily-matched blocks: the returned value is the last
element of the match list `findBlocks`, it is a contiguous substring of
the text shaped `/** inner */` whose interior contains no end marker
(shortest match), and no complete block occurs in the text after it. -/
theorem claim_C1_last_block (t : Str) (h : HasBlock t) :
    (findBlocks t).getLast? = some (extract_doc_comment t) ∧
    ∃ pre post inner,
      t = pre ++ extract_doc_comment t ++ post ∧
      extract_doc_comment t = docStart ++ inner ++ docEnd ∧
      ¬ OccursIn docEnd inner ∧
      ¬ HasBlock post := by
  rcases getLast?_some_of_ne_nil (findBlocks_ne_nil h) with ⟨b, hb⟩
  have hext : extract_doc_comment t = b := extract_eq_of_getLast hb
  rcases findBlocksAux_getLast t.length t (Nat.le_refl _) b hb with
    ⟨pre, post, inner, hdec, hshape, hnocc, hnb⟩
  refine ⟨by rw [hext]; exact hb, pre, post, inner, ?_, ?_, hnocc, hnb⟩
  · rw [hext]; exact hdec
  · rw [hext]; exact hshape

/-- Witness for C1 on a text with two blocks: the hypothesis is discharged
at a concrete decomposition and the theorem applied there. -/
theorem claim_C1_last_block_witness :
    (findBlocks (s "x/**a*/y/**b*/z")).getLast? =
        some (extract_doc_comment (s "x/**a*/y/**b*/z")) ∧
    ∃ pre post inner,
      s "x/**a*/y/**b*/z" = pre ++ extract_doc_comment (s "x/**a*/y/**b*/z") ++ post ∧
      extract_doc_comment (s "x/**a*/y/**b*/z") = docStart ++ inner ++ docEnd ∧
      ¬ OccursIn docEnd inner ∧
      ¬ HasBlock post :=
  claim_C1_last_block (s "x/**a*/y/**b*/z") ⟨s "x", s "a", s "y/**b*/z", by decide⟩

/-- C10: `extract_doc_comment` is a total function of its input (it is a
Lean function, so termination is by construction) and its result is always
a contiguous substring of the input, in each of its three branches. -/
theorem claim_C10_substring (t : Str) :
    ∃ pre post, t = pre ++ extract_doc_comment t ++ post := by
  cases hgl : (findBlocks t).getLast? with
  | some b =>
    have hext : extract_doc_comment t = b := extract_eq_of_getLast hgl
    rcases findBlocksAux_getLast t.length t (Nat.le_refl _) b hgl with
      ⟨pre, post, inner, hdec, -, -, -⟩
    exact ⟨pre, post, by rw [hext]; exact hdec⟩
  | none =>
    rw [extract_eq_fallback hgl]
    show ∃ pre post, t = pre ++
      (if pyRFind docStart t ≠ -1 ∧ pyFindFrom docEnd t (pyRFind docStart t) ≠ -1
        then pySliceIdx t (pyRFind docStart t).toNat
          ((pyFindFrom docEnd t (pyRFind docStart t)).toNat + 2)
        else t) ++ post
    split
    · exact slice_decomp t _ _
    · exact ⟨[], [], by simp⟩

/-- C8: on input containing neither marker, `extract_doc_comment` is the
identity, the warning branch is taken, and the driver still merges and
records a patch entry for the method keyed by its source text. -/
theorem claim_C8_passthrough (t src : Str) (ps : List (Str × Str))
    (h1 : occursB docStart t = false) (h2 : occursB docEnd t = false) :
    extract_doc_comment t = t ∧ extract_doc_warns t = true ∧
    lookupKey src (processStep ps src t) = some (insert_doc_comment src t) := by
  have hnds : ¬ OccursIn docStart t := by
    intro hocc
    have := (occursB_iff docStart t).mpr hocc
    rw [h1] at this
    cases this
  have hfb : findBlocks t = [] := by
    by_cases hne : findBlocks t = []
    · exact hne
    · rcases List.exists_mem_of_ne_nil _ hne with ⟨b, hb⟩
      rcases findBlocksAux_mem t.length t (Nat.le_refl _) b hb with
        ⟨pre, post, inner, hdec, hshape, -⟩
      exact absurd ⟨pre, inner ++ docEnd ++ post, by rw [hdec, hshape]; simp⟩ hnds
  have hgl : (findBlocks t).getLast? = none := by rw [hfb]; rfl
  have hlo : lastOcc docStart t = none := by
    cases hk : lastOcc docStart t with
    | none => rfl
    | some k =>
      rcases lastOcc_sound docStart_ne_nil hk with ⟨hbw, -⟩
      rcases (beginsWith_iff _ _).mp hbw with ⟨r, hr⟩
      refine absurd ⟨t.take k, r, ?_⟩ hnds
      conv_lhs => rw [← List.take_append_drop k t]
      rw [hr]
      simp
  have hstart : pyRFind docStart t = -1 := by simp [pyRFind, hlo]
  have hneg : ¬ (pyRFind docStart t ≠ -1 ∧
      pyFindFrom docEnd t (pyRFind docStart t) ≠ -1) := by
    rintro ⟨hs, -⟩
    exact hs hstart
  have hfall : extractFallback t = t := by
    show (if pyRFind docStart t ≠ -1 ∧ pyFindFrom docEnd t (pyRFind docStart t) ≠ -1
      then pySliceIdx t (pyRFind docStart t).toNat
        ((pyFindFrom docEnd t (pyRFind docStart t)).toNat + 2)
      else t) = t
    rw [if_neg hneg]
  have hext : extract_doc_comment t = t := by rw [extract_eq_fallback hgl, hfall]
  refine ⟨hext, by rw [extract_doc_warns, hfb]; rfl, ?_⟩
  rw [processStep, hext]
  exact lookupKey_dictInsert ps src (insert_doc_comment src t)

/-- Witness for C8 at a marker-free text. -/
theorem claim_C8_passthrough_witness :
    extract_doc_comment (s "no markers here") = s "no markers here" ∧
    extract_doc_warns (s "no markers here") = true ∧
    lookupKey (s "int f();") (processStep [] (s "int f();") (s "no markers here")) =
      some (insert_doc_comment (s "int f();") (s "no markers here")) :=
  claim_C8_passthrough (s "no markers here") (s "int f();") [] (by decide) (by decide)

theorem docStart_chars : docStart = '/' :: '*' :: '*' :: [] := rfl

theorem docEnd_chars : docEnd = '*' :: '/' :: [] := rfl

/-- C7: when no complete delimited block exists but the last start marker
(at index `p`) is followed, searching from `p` on, by an end-marker
occurrence (at offset `d` from `p`), `extract_doc_comment` returns exactly
the span from the start marker through that first end marker, both markers
included: `text[p : p+d+2]`.  The hypotheses force the end marker to
overlap the tail of the start marker (`d = 2`), so the span is literally
the four characters of a start marker whose tail closes it. -/
theorem claim_C7_partial_span (t : Str) (p d : Nat)
    (h1 : hasBlockB t = false)
    (h2 : lastOcc docStart t = some p)
    (h3 : firstOcc docEnd (t.drop p) = some d) :
    extract_doc_comment t = pySliceIdx t p (p + d + 2) ∧
    d = 2 ∧ pySliceIdx t p (p + d + 2) = s "/**/" := by
  have hnhb : ¬ HasBlock t := by
    intro hb
    have := (hasBlockB_iff t).mpr hb
    rw [h1] at this
    cases this
  have hfb : findBlocks t = [] := by
    by_cases hne : findBlocks t = []
    · exact hne
    · rcases List.exists_mem_of_ne_nil _ hne with ⟨b, hbm⟩
      rcases findBlocksAux_mem t.length t (Nat.le_refl _) b hbm with
        ⟨pre, post, inner, hdec, hshape, -⟩
      exact absurd ⟨pre, inner, post, by rw [hdec, hshape]; simp⟩ hnhb
  have hgl : (findBlocks t).getLast? = none := by rw [hfb]; rfl
  rcases lastOcc_sound docStart_ne_nil h2 with ⟨hbw, -⟩
  rcases (beginsWith_iff docStart (t.drop p)).mp hbw with ⟨m, hm⟩
  rcases firstOcc_sound h3 with ⟨pre2, post2, hlen2, hdec2, -⟩
  -- eliminate d ≥ 3: it would assemble a complete block
  have hd3 : ¬ 3 ≤ d := by
    intro hge
    apply hnhb
    have hdropd : (t.drop p).drop d = docEnd ++ post2 := by
      rw [hdec2, ← hlen2,
        show pre2 ++ docEnd ++ post2 = pre2 ++ (docEnd ++ post2) by simp]
      exact List.drop_left _ _
    have hm3 : m = (t.drop p).drop 3 := by
      rw [hm, show (3 : Nat) = docStart.length from rfl]
      exact (List.drop_left _ _).symm
    have hmd : m.drop (d - 3) = docEnd ++ post2 := by
      rw [hm3, List.drop_drop, show 3 + (d - 3) = d from by omega]
      exact hdropd
    refine ⟨t.take p, m.take (d - 3), post2, ?_⟩
    conv_lhs => rw [← List.take_append_drop p t]
    rw [hm]
    conv_lhs => rw [← List.take_append_drop (d - 3) m]
    rw [hmd]
    simp
  -- eliminate d = 0 and d = 1: the markers collide character-wise
  have hd0 : d ≠ 0 := by
    intro h0
    subst h0
    have hp2 : pre2 = [] := List.length_eq_zero.mp hlen2
    rw [hp2] at hdec2
    have hcmp := hm.symm.trans hdec2
    rw [docStart_chars, docEnd_chars] at hcmp
    simp at hcmp
  have hd1 : d ≠ 1 := by
    intro h01
    subst h01
    rcases pre2 with - | ⟨x, xs⟩
    · simp at hlen2
    · have hxs : xs = [] := by simpa using hlen2
      subst hxs
      have hcmp := hm.symm.trans hdec2
      rw [docStart_chars, docEnd_chars] at hcmp
      simp at hcmp
  have hd2 : d = 2 := by omega
  subst hd2
  -- the four characters from `p` are `/**/`
  have hpre2 : ∃ x1 x2, pre2 = [x1, x2] := by
    rcases pre2 with - | ⟨x1, xs⟩
    · simp at hlen2
    · rcases xs with - | ⟨x2, ys⟩
      · simp at hlen2
      · have : ys = [] := by simpa using hlen2
        exact ⟨x1, x2, by rw [this]⟩
  rcases hpre2 with ⟨x1, x2, hp2⟩
  rw [hp2] at hdec2
  have hcmp := hm.symm.trans hdec2
  rw [docStart_chars, docEnd_chars] at hcmp
  have hcmp' : '/' :: '*' :: '*' :: m = x1 :: x2 :: '*' :: '/' :: post2 := hcmp
  have hmtl : m = '/' :: post2 := by
    have hc := hcmp'
    simp only [List.cons.injEq] at hc
    exact hc.2.2.2
  have hu : t.drop p = '/' :: '*' :: '*' :: '/' :: post2 := by
    rw [hm, docStart_chars, hmtl]
    rfl
  -- evaluate the fallback branch of the code
  have hstart : pyRFind docStart t = (p : Int) := by simp [pyRFind, h2]
  have hnneg : ¬ ((p : Int) < 0) := by omega
  have hpf : pyFindFrom docEnd t (p : Int) = ((2 + p : Nat) : Int) := by
    simp only [pyFindFrom, if_neg hnneg, Int.toNat_ofNat, h3, Option.map_some']
  have hguard : pyRFind docStart t ≠ -1 ∧
      pyFindFrom docEnd t (pyRFind docStart t) ≠ -1 := by
    rw [hstart, hpf]
    constructor <;> (intro hcon; omega)
  have hfall : extractFallback t = pySliceIdx t p (p + 2 + 2) := by
    show (if pyRFind docStart t ≠ -1 ∧ pyFindFrom docEnd t (pyRFind docStart t) ≠ -1
      then pySliceIdx t (pyRFind docStart t).toNat
        ((pyFindFrom docEnd t (pyRFind docStart t)).toNat + 2)
      else t) = _
    rw [if_pos hguard, hstart, hpf]
    simp only [Int.toNat_ofNat]
    rw [show 2 + p + 2 = p + 2 + 2 from by omega]
  have hslice : pySliceIdx t p (p + 2 + 2) = s "/**/" := by
    rw [pySliceIdx, List.drop_take, hu]
    rw [show p + 2 + 2 - p = 4 from by omega]
    rfl
  exact ⟨by rw [extract_eq_fallback hgl, hfall], rfl, hslice⟩

/-- Witness for C7 at the text `x/**/`: the last start marker is at index
1 and the end-marker search from there lands at offset 2. -/
theorem claim_C7_partial_span_witness :
    extract_doc_comment (s "x/**/") = pySliceIdx (s "x/**/") 1 (1 + 2 + 2) ∧
    2 = 2 ∧ pySliceIdx (s "x/**/") 1 (1 + 2 + 2) = s "/**/" :=
  claim_C7_partial_span (s "x/**/") 1 2 (by decide) (by decide) (by decide)

theorem indentLoop_eq_specIndent (ls : List Str) :
    indentLoop ls = (match ls.find? (fun l => !(pyStrip l).isEmpty) with
      | some l => l.takeWhile pySpace
      | none => []) := by
  induction ls with
  | nil => rfl
  | cons line rest ih =>
    rw [List.find?_cons]
    by_cases h : pyStrip line = []
    · rw [show (!(pyStrip line).isEmpty) = false from by simp [h]]
      show (if pyStrip line ≠ [] then line.takeWhile pySpace else indentLoop rest) = _
      rw [if_neg (not_not_intro h)]
      exact ih
    · rw [show (!(pyStrip line).isEmpty) = true from by simp [h]]
      show (if pyStrip line ≠ [] then line.takeWhile pySpace else indentLoop rest) =
        List.takeWhile pySpace line
      rw [if_pos h]

/-- C2: `insert_doc_comment` computes the indent as the leading whitespace
run of the first non-blank line of the method source (empty if every line
is blank), prefixes it to exactly the non-blank lines of the doc comment,
and returns the reindented comment, one newline, and the method source
verbatim as a suffix.  `specIndent`/`specReindent` are the spec-side
formulations of §4.3. -/
theorem claim_C2_merger (src doc : Str) :
    insert_doc_comment src doc = specReindent doc (specIndent src) ++ s "\n" ++ src := by
  have hmap : ∀ (ind : Str) (ls : List Str),
      ls.map (fun line => if pyStrip line ≠ [] then ind ++ line else line)
        = ls.map (fun l => if (pyStrip l).isEmpty then l else ind ++ l) := by
    intro ind ls
    apply List.map_congr_left
    intro a ha
    by_cases h : pyStrip a = []
    · simp [h]
    · simp [h, List.isEmpty_iff]
  simp only [insert_doc_comment, specReindent, specIndent,
    indentLoop_eq_specIndent, hmap]

theorem countKey_nil (k : Str) : countKey k [] = 0 := rfl

theorem countKey_cons (k k' v' : Str) (rest : List (Str × Str)) :
    countKey k ((k', v') :: rest) = (if k' = k then 1 else 0) + countKey k rest := by
  by_cases h : k' = k
  · simp [countKey, List.filter_cons, h]
    omega
  · simp [countKey, List.filter_cons, h]

theorem countKey_dictInsert (ps : List (Str × Str)) (k v : Str) :
    countKey k (dictInsert ps k v) =
      if countKey k ps = 0 then 1 else countKey k ps := by
  induction ps with
  | nil => simp [dictInsert, countKey_cons, countKey_nil]
  | cons e rest ih =>
    rcases e with ⟨k', v'⟩
    by_cases h : k' = k
    · simp only [dictInsert, if_pos h, countKey_cons, if_pos h]
      have hne : ¬ (1 + countKey k rest = 0) := by omega
      rw [if_neg hne]
    · simp only [dictInsert, if_neg h, countKey_cons, if_neg h, ih, Nat.zero_add]

/-- C9: if two processed methods have identical source text (and that text
was not yet a key of the patch set), the final patch set holds exactly one
entry for it, whose merged text is the one computed from the second
model output (dictionary last-writer-wins); the step functions are total,
so no error is raised. -/
theorem claim_C9_collision (ps : List (Str × Str)) (src o1 o2 : Str)
    (h : countKey src ps = 0) :
    countKey src (processStep (processStep ps src o1) src o2) = 1 ∧
    lookupKey src (processStep (processStep ps src o1) src o2) =
      some (insert_doc_comment src (extract_doc_comment o2)) := by
  constructor
  · rw [processStep, processStep, countKey_dictInsert, countKey_dictInsert, h]
    simp
  · rw [processStep]
    exact lookupKey_dictInsert _ _ _

/-- Witness for C9 at two identical methods processed in sequence. -/
theorem claim_C9_collision_witness :
    countKey (s "int g();")
        (processStep (processStep [] (s "int g();") (s "/**A*/"))
          (s "int g();") (s "/**B*/")) = 1 ∧
    lookupKey (s "int g();")
        (processStep (processStep [] (s "int g();") (s "/**A*/"))
          (s "int g();") (s "/**B*/")) =
      some (insert_doc_comment (s "int g();") (extract_doc_comment (s "/**B*/"))) :=
  claim_C9_collision [] (s "int g();") (s "/**A*/") (s "/**B*/") (by decide)

/-- C4 counterexample: the claim says that on a backend failure no patch
entry is produced for the method.  In the code, `DeepseekLLM.run` catches
the exception and returns the empty string, the driver does not skip, and
a patch entry IS recorded for the method's source text (with merged text
a bare newline followed by the source).  Concretely, for source
`int f(int x)` and a failing backend the patch set has an entry for it. -/
theorem claim_C4_counterexample :
    lookupKey (s "int f(int x)")
        (processStep [] (s "int f(int x)") (deepseekRun none)) =
      some (s "\n" ++ s "int f(int x)") ∧
    lookupKey (s "int f(int x)")
        (processStep [] (s "int f(int x)") (deepseekRun none)) ≠ none := by
  constructor
  · rfl
  · intro hc
    cases hc

/-- C4 amended: when the model invocation fails, `DeepseekLLM.run` returns
the empty string; the driver still proceeds through extraction (which
passes the empty string through), merging, and patch recording, so the
patch set DOES contain an entry keyed by the method's source text, with
merged text equal to a newline followed by the source text; processing
continues (the step is total and later methods are unaffected). -/
theorem claim_C4_amended (ps : List (Str × Str)) (src : Str) :
    deepseekRun none = [] ∧
    lookupKey src (processStep ps src (deepseekRun none)) = some (s "\n" ++ src) := by
  refine ⟨rfl, ?_⟩
  have hdoc : extract_doc_comment (deepseekRun none) = [] := rfl
  have hins : insert_doc_comment src (extract_doc_comment (deepseekRun none)) =
      s "\n" ++ src := by
    rw [hdoc]
    rfl
  rw [processStep, hins]
  exact lookupKey_dictInsert _ _ _

/-!  ## Lemmas: the source patcher  -/

theorem splitOccAux_ne_nil (pat : Str) : ∀ fuel (l : Str), splitOccAux pat fuel l ≠ [] := by
  intro fuel l
  cases fuel with
  | zero => cases l <;> simp [splitOccAux]
  | succ f =>
    cases l with
    | nil => simp [splitOccAux]
    | cons c rest =>
      simp only [splitOccAux]
      split
      · simp
      · cases hsp : splitOccAux pat f rest <;> simp

theorem splitOccAux_head (pat : Str) :
    ∀ fuel (l : Str) p ps, splitOccAux pat fuel l = p :: ps → ∃ r, l = p ++ r := by
  intro fuel
  induction fuel with
  | zero =>
    intro l p ps h
    cases l with
    | nil =>
      simp [splitOccAux] at h
      exact ⟨[], by simp [h.1]⟩
    | cons c rest =>
      simp [splitOccAux] at h
      exact ⟨[], by simp [h.1]⟩
  | succ f ih =>
    intro l p ps h
    cases l with
    | nil =>
      simp [splitOccAux] at h
      exact ⟨[], by simp [h.1]⟩
    | cons c rest =>
      simp only [splitOccAux] at h
      by_cases hb : beginsWith pat (c :: rest) = true
      · rw [if_pos hb] at h
        injection h with h1 h2
        exact ⟨c :: rest, by rw [← h1]; rfl⟩
      · rw [if_neg hb] at h
        cases hsp : splitOccAux pat f rest with
        | nil => exact absurd hsp (splitOccAux_ne_nil pat f rest)
        | cons p0 ps0 =>
          rw [hsp] at h
          injection h with h1 h2
          rcases ih rest p0 ps0 hsp with ⟨r, hr⟩
          exact ⟨r, by rw [← h1, hr]; rfl⟩

theorem joinWith_cons_head (sep : Str) (c : Char) (p : Str) (ps : List Str) :
    joinWith sep ((c :: p) :: ps) = c :: joinWith sep (p :: ps) := by
  cases ps with
  | nil => rfl
  | cons y ys => simp [joinWith]

theorem splitOccAux_join (pat : Str) (hpat : pat ≠ []) :
    ∀ fuel (l : Str), l.length ≤ fuel →
      joinWith pat (splitOccAux pat fuel l) = l := by
  intro fuel
  induction fuel with
  | zero =>
    intro l hf
    have : l = [] := List.length_eq_zero.mp (Nat.le_zero.mp hf)
    subst this
    rfl
  | succ f ih =>
    intro l hf
    cases l with
    | nil => rfl
    | cons c rest =>
      simp only [splitOccAux]
      simp only [List.length_cons] at hf
      by_cases hb : beginsWith pat (c :: rest) = true
      · rw [if_pos hb]
        rcases (beginsWith_iff _ _).mp hb with ⟨r, hr⟩
        have hdrop : (c :: rest : Str).drop pat.length = r := by
          rw [hr, List.drop_left]
        have hlenr : r.length ≤ f := by
          have := congrArg List.length hr
          simp only [List.length_cons, List.length_append] at this
          have hp1 : 1 ≤ pat.length :=
            List.length_pos.mpr hpat
          omega
        cases hsp : splitOccAux pat f ((c :: rest : Str).drop pat.length) with
        | nil => exact absurd hsp (splitOccAux_ne_nil pat f _)
        | cons t0 ts =>
          rw [show joinWith pat ([] :: t0 :: ts) = pat ++ joinWith pat (t0 :: ts) from rfl]
          rw [← hsp, ih _ (by rw [hdrop]; exact hlenr), hdrop, hr]
      · rw [if_neg hb]
        cases hsp : splitOccAux pat f rest with
        | nil => exact absurd hsp (splitOccAux_ne_nil pat f rest)
        | cons p0 ps0 =>
          rw [joinWith_cons_head, ← hsp, ih rest (by omega)]

theorem splitOccAux_no_occ (pat : Str) (hpat : pat ≠ []) :
    ∀ fuel (l : Str), l.length ≤ fuel → ∀ p ∈ splitOccAux pat fuel l, ¬ OccursIn pat p := by
  intro fuel
  have hnil : ¬ OccursIn pat [] := by
    rintro ⟨x, y, hxy⟩
    have := congrArg List.length hxy
    simp only [List.length_nil, List.length_append] at this
    have hp1 : 1 ≤ pat.length := List.length_pos.mpr hpat
    omega
  induction fuel with
  | zero =>
    intro l hf p hp
    have : l = [] := List.length_eq_zero.mp (Nat.le_zero.mp hf)
    subst this
    simp [splitOccAux] at hp
    rw [hp]
    exact hnil
  | succ f ih =>
    intro l hf p hp
    cases l with
    | nil =>
      simp [splitOccAux] at hp
      rw [hp]
      exact hnil
    | cons c rest =>
      simp only [splitOccAux] at hp
      simp only [List.length_cons] at hf
      by_cases hb : beginsWith pat (c :: rest) = true
      · rw [if_pos hb] at hp
        rcases (beginsWith_iff _ _).mp hb with ⟨r, hr⟩
        have hdrop : (c :: rest : Str).drop pat.length = r := by
          rw [hr, List.drop_left]
        have hlenr : r.length ≤ f := by
          have := congrArg List.length hr
          simp only [List.length_cons, List.length_append] at this
          have hp1 : 1 ≤ pat.length := List.length_pos.mpr hpat
          omega
        rcases List.mem_cons.mp hp with hp0 | hpmem
        · rw [hp0]; exact hnil
        · exact ih _ (by rw [hdrop]; exact hlenr) p hpmem
      · rw [if_neg hb] at hp
        cases hsp : splitOccAux pat f rest with
        | nil => exact absurd hsp (splitOccAux_ne_nil pat f rest)
        | cons p0 ps0 =>
          rw [hsp] at hp
          rcases List.mem_cons.mp hp with hp0 | hpmem
          · rw [hp0]
            rintro ⟨x, y, hxy⟩
            cases x with
            | nil =>
              rcases splitOccAux_head pat f rest p0 ps0 hsp with ⟨r, hr⟩
              have hpre : beginsWith pat (c :: rest) = true := by
                apply (beginsWith_iff _ _).mpr
                refine ⟨y ++ r, ?_⟩
                rw [hr]
                have hcp : (c :: p0 : Str) = pat ++ y := by simpa using hxy
                calc (c :: (p0 ++ r) : Str) = (c :: p0) ++ r := by simp
                  _ = (pat ++ y) ++ r := by rw [hcp]
                  _ = pat ++ (y ++ r) := by simp
              exact absurd hpre hb
            | cons x0 xs =>
              have hxp : p0 = xs ++ pat ++ y := by
                have h2 := hxy
                simp only [List.cons_append] at h2
                injection h2 with h1 h2
              exact ih rest (by omega) p0 (by rw [hsp]; simp) ⟨xs, y, hxp⟩
          · exact ih rest (by omega) p (by rw [hsp]; exact List.mem_cons_of_mem p0 hpmem)

theorem pyReplace_spec (o m c : Str) (ho : o ≠ []) :
    ∃ pieces, pieces ≠ [] ∧ c = joinWith o pieces ∧
      pyReplace o m c = joinWith m pieces ∧ ∀ p ∈ pieces, ¬ OccursIn o p := by
  refine ⟨splitOcc o c, splitOccAux_ne_nil o c.length c, ?_, ?_, ?_⟩
  · exact (splitOccAux_join o ho c.length c (Nat.le_refl _)).symm
  · rw [pyReplace, if_neg ho]
  · exact splitOccAux_no_occ o ho c.length c (Nat.le_refl _)

theorem applyPatchSet_eq_foldl (entries : List (Str × Str)) :
    ∀ content, applyPatchSet content entries =
      entries.foldl (fun c e => write_code_snippet c e.1 e.2) content := by
  induction entries with
  | nil => intro content; rfl
  | cons e rest ih => intro content; simp only [applyPatchSet, List.foldl_cons, ih]

/-- C3: the patcher applies the entries of a non-empty patch set to the
file content in insertion order (a left fold of `str.replace`), and each
step replaces every non-overlapping literal occurrence of the entry's
original text: the content splits into pieces free of the original text,
joined by the original text before the step and by the merged text after
it.  The replacement function itself is modelled from the spec because
`utils.write_code_snippet_to_file` is not among the provided sources. -/
theorem claim_C3_patcher (entries : List (Str × Str)) (content : Str)
    (hne : entries ≠ []) (hok : ∀ e ∈ entries, e.1 ≠ []) :
    applyPatchSet content entries =
      entries.foldl (fun c e => write_code_snippet c e.1 e.2) content ∧
    ∀ e ∈ entries, ∀ c : Str,
      ∃ pieces, pieces ≠ [] ∧ c = joinWith e.1 pieces ∧
        write_code_snippet c e.1 e.2 = joinWith e.2 pieces ∧
        ∀ p ∈ pieces, ¬ OccursIn e.1 p := by
  refine ⟨applyPatchSet_eq_foldl entries content, ?_⟩
  intro e he c
  rcases pyReplace_spec e.1 e.2 c (hok e he) with ⟨pieces, hne', hjoin, hrep, hnocc⟩
  exact ⟨pieces, hne', hjoin, hrep, hnocc⟩

/-- Witness for C3 with one entry applied to a content holding the
original text twice. -/
theorem claim_C3_patcher_witness :
    (applyPatchSet (s "xabyab") [(s "ab", s "Z")] =
      [((s "ab", s "Z"))].foldl (fun c e => write_code_snippet c e.1 e.2) (s "xabyab") ∧
    ∀ e ∈ [((s "ab", s "Z"))], ∀ c : Str,
      ∃ pieces, pieces ≠ [] ∧ c = joinWith e.1 pieces ∧
        write_code_snippet c e.1 e.2 = joinWith e.2 pieces ∧
        ∀ p ∈ pieces, ¬ OccursIn e.1 p) ∧
    applyPatchSet (s "xabyab") [(s "ab", s "Z")] = s "xZyZ" :=
  ⟨claim_C3_patcher [(s "ab", s "Z")] (s "xabyab") (by decide) (by decide), rfl⟩

/-!  ## Lemmas: stream reassembly  -/

theorem slAux_cons {c : Char} (hc1 : c ≠ '\n') (hc2 : c ≠ '\r') (acc xs : Str) :
    slAux acc (c :: xs) = slAux (c :: acc) xs := by
  cases xs with
  | nil => simp [slAux, hc1, hc2]
  | cons d rest => simp [slAux, hc1, hc2]

theorem slAux_append (p : Str) (hp : ∀ ch ∈ p, ch ≠ '\n' ∧ ch ≠ '\r') :
    ∀ acc xs, slAux acc (p ++ xs) = slAux (p.reverse ++ acc) xs := by
  induction p with
  | nil => intro acc xs; simp
  | cons c p' ih =>
    intro acc xs
    have hc := hp c (List.mem_cons_self c p')
    rw [List.cons_append, slAux_cons hc.1 hc.2,
      ih (fun ch hch => hp ch (List.mem_cons_of_mem c hch))]
    simp

theorem slAux_nl (acc xs : Str) :
    slAux acc ('\n' :: xs) = acc.reverse :: slAux [] xs := by
  cases xs with
  | nil => simp [slAux]
  | cons d rest => simp [slAux]

theorem pySplitlines_join (ls : List Str)
    (h : ∀ l ∈ ls, l ≠ [] ∧ ∀ ch ∈ l, ch ≠ '\n' ∧ ch ≠ '\r') :
    pySplitlines (joinWith (s "\n") ls) = ls := by
  induction ls with
  | nil => rfl
  | cons x rest ih =>
    cases rest with
    | nil =>
      have hx := h x (List.mem_cons_self x [])
      show slAux [] x = [x]
      conv_lhs => rw [show x = x ++ [] from (List.append_nil x).symm]
      rw [slAux_append x hx.2]
      simp [slAux, hx.1]
    | cons y ys =>
      have hx := h x (List.mem_cons_self x (y :: ys))
      have hjoin : joinWith (s "\n") (x :: y :: ys)
          = x ++ ('\n' :: joinWith (s "\n") (y :: ys)) := by
        show x ++ s "\n" ++ joinWith (s "\n") (y :: ys) = _
        simp [s]
      rw [pySplitlines, hjoin, slAux_append x hx.2, List.append_nil, slAux_nl,
        List.reverse_reverse]
      exact congrArg (List.cons x) (ih (fun l hl => h l (List.mem_cons_of_mem x hl)))

theorem fragLine_data (p : Str) : fragLine (s "data: " ++ p) = fragValue p := by
  have hb : beginsWith (s "data: ") (s "data: " ++ p) = true := beginsWith_append _ _
  have hd : (s "data: " ++ p).drop 6 = p := by
    rw [show (6 : Nat) = (s "data: ").length from rfl, List.drop_left]
  rw [fragLine, if_pos hb]
  show (if pyStrip ((s "data: " ++ p).drop 6) = s "[h_newline]" then some (s "\n")
    else if pyStrip ((s "data: " ++ p).drop 6) ≠ [] ∧
        pyStrip ((s "data: " ++ p).drop 6) ≠ s "[DONE]" ∧
        pyStrip ((s "data: " ++ p).drop 6) ≠ s "[newline]"
      then some ((s "data: " ++ p).drop 6)
    else none) = fragValue p
  rw [hd, fragValue]

theorem filterMap_fragLine_data (ps : List Str) :
    (ps.map (fun p => s "data: " ++ p)).filterMap fragLine = ps.filterMap fragValue := by
  induction ps with
  | nil => rfl
  | cons p rest ih =>
    simp only [List.map_cons, List.filterMap_cons, fragLine_data, ih]

/-- C6 (amended): a response framed as `"data: "`-prefixed lines is
reassembled by concatenating the surviving fragment payloads in arrival
order with the framing stripped, where the newline marker `[h_newline]`
contributes a newline, and the control fragments `[DONE]` and `[newline]`
as well as fragments whose payload is empty or whitespace-only are
dropped; if every fragment is dropped (or no fragment is recognised), the
whole response text is used as a single payload. -/
theorem claim_C6_reassembly (ps : List Str)
    (h : ∀ p ∈ ps, ∀ ch ∈ p, ch ≠ '\n' ∧ ch ≠ '\r') :
    deepseekReassemble (joinWith (s "\n") (ps.map (fun p => s "data: " ++ p))) =
      if ps.filterMap fragValue = []
        then joinWith (s "\n") (ps.map (fun p => s "data: " ++ p))
        else (ps.filterMap fragValue).flatten := by
  have hlines : pySplitlines (joinWith (s "\n") (ps.map (fun p => s "data: " ++ p)))
      = ps.map (fun p => s "data: " ++ p) := by
    apply pySplitlines_join
    intro l hl
    rcases List.mem_map.mp hl with ⟨p, hp, rfl⟩
    refine ⟨by simp [s], ?_⟩
    intro ch hch
    rcases List.mem_append.mp hch with hch | hch
    · exact (by decide : ∀ ch ∈ s "data: ", ch ≠ '\n' ∧ ch ≠ '\r') ch hch
    · exact h p hp ch hch
  show (if (pySplitlines (joinWith (s "\n") (ps.map (fun p => s "data: " ++ p)))).filterMap
        fragLine = []
      then joinWith (s "\n") (ps.map (fun p => s "data: " ++ p))
      else ((pySplitlines (joinWith (s "\n")
        (ps.map (fun p => s "data: " ++ p)))).filterMap fragLine).flatten) = _
  rw [hlines, filterMap_fragLine_data]

/-- Witness for C6 at the spec's own example fragment sequence. -/
theorem claim_C6_reassembly_witness :
    deepseekReassemble (joinWith (s "\n")
      ([s "public ", s "void", s "[h_newline]",
        s "foo()" ++ [Char.ofNat 123, Char.ofNat 125]].map
          (fun p => s "data: " ++ p))) =
      s "public void\nfoo()" ++ [Char.ofNat 123, Char.ofNat 125] := by
  rw [claim_C6_reassembly
    [s "public ", s "void", s "[h_newline]",
      s "foo()" ++ [Char.ofNat 123, Char.ofNat 125]]
    (by decide)]
  decide

/-- C6 counterexample: a single framed line whose payload is one space.
The claim as stated predicts the payload `" "` (prefix stripped, not a
control token), but the code drops whitespace-only payloads and, all
fragments being dropped, returns the whole response text instead. -/
theorem claim_C6_counterexample :
    beginsWith (s "data: ") (s "data:  ") = true ∧
    deepseekReassemble (s "data:  ") = s "data:  " ∧
    s "data:  " ≠ s " " := by
  refine ⟨by decide, rfl, by decide⟩

/-!  ## Lemmas: fenced code block extraction  -/

theorem splitAtFence_sound :
    ∀ (l b a : Str), splitAtFence l = some (b, a) → l = b ++ s "```" ++ a := by
  intro l
  induction l with
  | nil => intro b a h; cases h
  | cons c rest ih =>
    intro b a h
    by_cases hb : beginsWith (s "```") (c :: rest) = true
    · simp only [splitAtFence, if_pos hb, Option.some.injEq, Prod.mk.injEq] at h
      rcases (beginsWith_iff _ _).mp hb with ⟨r, hr⟩
      have hdrop : (c :: rest : Str).drop 3 = r := by
        rw [hr, show (3 : Nat) = (s "```").length from rfl, List.drop_left]
      rw [← h.1, ← h.2, hdrop, hr]
      rfl
    · simp only [splitAtFence, if_neg hb, Option.map_eq_some'] at h
      rcases h with ⟨⟨b', a'⟩, hsp, heq⟩
      injection heq with h1 h2
      rw [← h1, ← h2, ih b' a' hsp]
      rfl

theorem tryInner_sound {l inner : Str} (h : tryInner l = some inner) :
    inner ≠ [] ∧ ∃ a, l = inner ++ s "```" ++ a := by
  cases l with
  | nil => cases h
  | cons c rest =>
    simp only [tryInner, Option.map_eq_some'] at h
    rcases h with ⟨⟨b, a⟩, hsp, heq⟩
    have hb := splitAtFence_sound rest b a hsp
    rw [← heq]
    exact ⟨by simp, a, by rw [hb]; rfl⟩

theorem tryNl_sound {l inner : Str} (h : tryNl l = some inner) :
    inner ≠ [] ∧ ∃ nlp a, (nlp = [] ∨ nlp = s "\n") ∧
      l = nlp ++ inner ++ s "```" ++ a := by
  cases l with
  | nil => cases h
  | cons c rest =>
    simp only [tryNl] at h
    by_cases hc : c = '\n'
    · rw [if_pos hc] at h
      cases hti : tryInner rest with
      | some inner' =>
        rw [hti] at h
        injection h with h'
        subst h'
        rcases tryInner_sound hti with ⟨hne, a, ha⟩
        exact ⟨hne, s "\n", a, Or.inr rfl, by rw [hc, ha]; rfl⟩
      | none =>
        rw [hti] at h
        rcases tryInner_sound h with ⟨hne, a, ha⟩
        exact ⟨hne, [], a, Or.inl rfl, by rw [ha]; rfl⟩
    · rw [if_neg hc] at h
      rcases tryInner_sound h with ⟨hne, a, ha⟩
      exact ⟨hne, [], a, Or.inl rfl, by rw [ha]; rfl⟩

theorem tryLangFrom_sound :
    ∀ (w : Nat) (l : Str) (lg : Option Str) (inner : Str),
      tryLangFrom w l = some (lg, inner) →
      inner ≠ [] ∧ ∃ nlp a, (nlp = [] ∨ nlp = s "\n") ∧
        l = lg.getD [] ++ nlp ++ inner ++ s "```" ++ a := by
  intro w
  induction w with
  | zero =>
    intro l lg inner h
    simp only [tryLangFrom, Option.map_eq_some'] at h
    rcases h with ⟨inner', hnl, heq⟩
    injection heq with h1 h2
    subst h1 h2
    rcases tryNl_sound hnl with ⟨hne, nlp, a, hnlp, hl⟩
    exact ⟨hne, nlp, a, hnlp, by rw [hl]; rfl⟩
  | succ w ih =>
    intro l lg inner h
    simp only [tryLangFrom] at h
    cases hnl : tryNl (l.drop (w + 1)) with
    | some inner' =>
      rw [hnl] at h
      injection h with h'
      injection h' with h1 h2
      subst h1 h2
      rcases tryNl_sound hnl with ⟨hne, nlp, a, hnlp, hl⟩
      refine ⟨hne, nlp, a, hnlp, ?_⟩
      conv_lhs => rw [← List.take_append_drop (w + 1) l]
      rw [hl]
      simp
    | none =>
      rw [hnl] at h
      exact ih l lg inner h

theorem fenceSearch_sound :
    ∀ (t : Str) (lg : Option Str) (inner : Str),
      fenceSearch t = some (lg, inner) →
      inner ≠ [] ∧ ∃ pre nlp post, (nlp = [] ∨ nlp = s "\n") ∧
        t = pre ++ s "```" ++ lg.getD [] ++ nlp ++ inner ++ s "```" ++ post := by
  intro t
  induction t with
  | nil => intro lg inner h; cases h
  | cons c rest ih =>
    intro lg inner h
    by_cases hb : beginsWith (s "```") (c :: rest) = true
    · rw [fenceSearch, if_pos hb] at h
      rcases (beginsWith_iff _ _).mp hb with ⟨m, hm⟩
      have hdrop : (c :: rest : Str).drop 3 = m := by
        rw [hm, show (3 : Nat) = (s "```").length from rfl, List.drop_left]
      cases htl : tryLangFrom (wordRun ((c :: rest : Str).drop 3)) ((c :: rest : Str).drop 3) with
      | some r =>
        rw [htl] at h
        injection h with h'
        subst h'
        rw [hdrop] at htl
        rcases tryLangFrom_sound _ _ _ _ htl with ⟨hne, nlp, a, hnlp, hl⟩
        exact ⟨hne, [], nlp, a, hnlp, by rw [hm, hl]; rfl⟩
      | none =>
        rw [htl] at h
        rcases ih lg inner h with ⟨hne, pre, nlp, post, hnlp, hdec⟩
        exact ⟨hne, c :: pre, nlp, post, hnlp, by rw [hdec]; rfl⟩
    · rw [fenceSearch, if_neg hb] at h
      rcases ih lg inner h with ⟨hne, pre, nlp, post, hnlp, hdec⟩
      exact ⟨hne, c :: pre, nlp, post, hnlp, by rw [hdec]; rfl⟩

theorem takeWhile_self_prefix {p : Char → Bool} {l : Str} :
    l.take (l.takeWhile p).length = l.takeWhile p := by
  rcases List.takeWhile_prefix (l := l) (p := p) with ⟨r, hr⟩
  calc l.take (l.takeWhile p).length
      = (l.takeWhile p ++ r).take (l.takeWhile p).length := by rw [hr]
    _ = l.takeWhile p := List.take_left _ _

theorem langCommentMatch_sound {t lg rest : Str}
    (h : langCommentMatch t = some (lg, rest)) :
    lg ≠ [] ∧ (∀ ch ∈ lg, isWordChar ch = true) ∧
    ∃ ws, (∀ ch ∈ ws, pySpace ch = true) ∧ t = lg ++ ws ++ rest ∧
      ∃ r2, rest = docStart ++ r2 ∧ r2 ≠ [] := by
  by_cases hw : wordRun t = 0
  · simp [langCommentMatch, hw] at h
  · simp only [langCommentMatch, hw, if_neg] at h
    by_cases hg : beginsWith docStart ((t.drop (wordRun t)).dropWhile pySpace) = true ∧
        4 ≤ ((t.drop (wordRun t)).dropWhile pySpace).length
    · rw [if_pos hg] at h
      injection h with h'
      injection h' with h1 h2
      have hlg : lg = t.takeWhile isWordChar := by
        rw [← h1, wordRun, takeWhile_self_prefix]
      refine ⟨?_, ?_, (t.drop (wordRun t)).takeWhile pySpace, ?_, ?_, ?_⟩
      · rw [hlg]
        intro hnil
        rw [wordRun, hnil] at hw
        exact hw rfl
      · intro ch hch
        rw [hlg] at hch
        exact List.mem_takeWhile_imp hch
      · intro ch hch
        exact List.mem_takeWhile_imp hch
      · rw [← h1, ← h2]
        conv_lhs => rw [← List.take_append_drop (wordRun t) t,
          ← List.takeWhile_append_dropWhile (p := pySpace) (l := t.drop (wordRun t))]
        simp
      · rcases (beginsWith_iff _ _).mp hg.1 with ⟨r2, hr2⟩
        refine ⟨r2, by rw [← h2]; exact hr2, ?_⟩
        intro hnil
        rw [hnil] at hr2
        have := hg.2
        rw [hr2] at this
        simp [docStart, s] at this
    · rw [if_neg hg] at h
      cases h

/-- C5 counterexample: for a payload containing the fenced block with
language tag `java` and inner text `X`, the claim as stated says
normalization outputs exactly the inner text `X`; the code instead
re-wraps the processed inner text in a fresh fence carrying the tag. -/
theorem claim_C5_counterexample :
    extract_code_block (s "```java\nX```") = s "```java\nX\n```" ∧
    s "```java\nX\n```" ≠ s "X" := by
  exact ⟨rfl, by decide⟩

/-- C5 (amended): `_extract_code_block` selects the payload exactly as the
claim describes (fenced block inner text with its tag; otherwise a leading
language token directly followed by a delimited comment, taking the
remainder; otherwise the raw payload with the default tag `java`), applies
the newline-marker replacement, per-line `data:` framing strip and leading
whitespace strip to the selected text, but returns it re-wrapped in a
fresh fence that carries the language tag rather than the bare inner
text. -/
theorem claim_C5_normalizer (t : Str) :
    (∀ lg inner, fenceSearch t = some (lg, inner) →
      extract_code_block t = wrapFence (lg.getD (s "java")) (postProcessCode inner) ∧
      inner ≠ [] ∧ ∃ pre nlp post, (nlp = [] ∨ nlp = s "\n") ∧
        t = pre ++ s "```" ++ lg.getD [] ++ nlp ++ inner ++ s "```" ++ post) ∧
    (∀ lg rest, fenceSearch t = none → langCommentMatch t = some (lg, rest) →
      extract_code_block t = wrapFence lg (postProcessCode rest) ∧
      lg ≠ [] ∧ (∀ ch ∈ lg, isWordChar ch = true) ∧
      ∃ ws, (∀ ch ∈ ws, pySpace ch = true) ∧ t = lg ++ ws ++ rest ∧
        ∃ r2, rest = docStart ++ r2 ∧ r2 ≠ []) ∧
    (fenceSearch t = none → langCommentMatch t = none →
      extract_code_block t = wrapFence (s "java") (postProcessCode t)) := by
  refine ⟨?_, ?_, ?_⟩
  · intro lg inner hf
    refine ⟨by simp [extract_code_block, hf], ?_⟩
    rcases fenceSearch_sound t lg inner hf with ⟨hne, pre, nlp, post, hnlp, hdec⟩
    exact ⟨hne, pre, nlp, post, hnlp, hdec⟩
  · intro lg rest hf hl
    refine ⟨by simp [extract_code_block, hf, hl], ?_⟩
    exact langCommentMatch_sound hl
  · intro hf hl
    simp [extract_code_block, hf, hl]

/-- Witness for C5 instantiating each of the three branches at a concrete
input. -/
theorem claim_C5_normalizer_witness :
    extract_code_block (s "```java\nX```") =
      wrapFence (s "java") (postProcessCode (s "X")) ∧
    extract_code_block (s "java /**x*/") =
      wrapFence (s "java") (postProcessCode (s "/**x*/")) ∧
    extract_code_block (s "hello") =
      wrapFence (s "java") (postProcessCode (s "hello")) := by
  refine ⟨?_, ?_, ?_⟩
  · have h := (claim_C5_normalizer (s "```java\nX```")).1
      (some (s "java")) (s "X") (by decide)
    simpa using h.1
  · exact ((claim_C5_normalizer (s "java /**x*/")).2.1
      (s "java") (s "/**x*/") (by decide) (by decide)).1
  · exact (claim_C5_normalizer (s "hello")).2.2 (by decide) (by decide)
